import Mathlib

/-!
Verification of the image-processing and animation subsystem of the fswww
wallpaper daemon (`src/daemon/processor/mod.rs`), against its
natural-language specification.

Pixel buffers are modelled as lists of 4-byte pixels (`Pix`), byte values as
`Nat` (the Rust code uses `u8`; where a bound matters it appears as an
explicit `< 256` hypothesis — the code's `u8` arithmetic provably never
overflows under those bounds).  The delta codec (`comp_decomp.rs`) is not
among the repository's staged files, so it is modelled from the
specification's words; everything else is translated from the source.
-/

set_option maxRecDepth 8192

namespace Fswww

/-- One 4-byte pixel in the surface's native order (bytes 0..3; after the
resizer's swizzle the order is B,G,R,A, so `c3` is the alpha byte). -/
structure Pix where
  c0 : Nat
  c1 : Nat
  c2 : Nat
  c3 : Nat
deriving DecidableEq

/-- The first three bytes of a pixel: what the delta codec transmits. -/
structure Tri where
  t0 : Nat
  t1 : Nat
  t2 : Nat
deriving DecidableEq

/-- The 3-byte triple of a pixel (alpha dropped). -/
def tripleOf (p : Pix) : Tri := ⟨p.c0, p.c1, p.c2⟩

/-- Writing a literal triple into a pixel keeps the pixel's own alpha byte
(the codec does not transmit alpha). -/
def setTriple (t : Tri) (p : Pix) : Pix := ⟨t.t0, t.t1, t.t2, p.c3⟩

/-- Whether two pixels agree on their first three bytes. -/
def eqTriple (p q : Pix) : Bool := decide (tripleOf p = tripleOf q)

/-- Length of the leading run of positions where both buffers' triples agree. -/
def countEq : List Pix → List Pix → Nat
  | x :: xs, y :: ys => if eqTriple x y then countEq xs ys + 1 else 0
  | _, _ => 0

/-- Length of the leading run of positions where the buffers' triples differ. -/
def countDiff : List Pix → List Pix → Nat
  | x :: xs, y :: ys => if eqTriple x y then 0 else countDiff xs ys + 1
  | _, _ => 0

/-- One segment of a pack: a 1-byte skip count (pixels where both buffers
agree) followed by the literal triples of the differing pixels that follow.
Both counts stay in `[0,255]` by construction. -/
def Seg : Type := Nat × List Tri

/-- The skip count of the next segment: the leading equal run, cut at the
1-byte maximum 255. -/
def skipCount (a b : List Pix) : Nat := min 255 (countEq a b)

/-- The literal count of the next segment: the differing run that follows the
skipped pixels, cut at the 1-byte maximum 255 (after a cut-at-255 skip of a
longer equal run this is 0 — the spec's zero-length literal that forces
another skip byte; symmetrically a longer literal run continues with a
0-skip segment). -/
def litCount (a b : List Pix) : Nat :=
  min 255 (countDiff (a.drop (skipCount a b)) (b.drop (skipCount a b)))

/-- The next segment the packer emits for buffers `a`, `b`: skip the equal
run, then the literal triples of B's differing data. -/
def segOf (a b : List Pix) : Seg :=
  (skipCount a b, ((b.drop (skipCount a b)).take (litCount a b)).map tripleOf)

/-- Modelled from the spec: the segment-emitting walk of `BitPack::pack` of
`comp_decomp.rs` (the file is not among the staged sources), with explicit
fuel so the function is structurally recursive; every step consumes at least
one pixel, so fuel `a.length` always suffices. -/
def packGo : Nat → List Pix → List Pix → List Seg
  | 0, _, _ => []
  | _ + 1, [], _ => []
  | _ + 1, _ :: _, [] => []
  | fuel + 1, x :: xs, y :: ys =>
    segOf (x :: xs) (y :: ys) ::
      packGo fuel
        (((x :: xs).drop (skipCount (x :: xs) (y :: ys))).drop (litCount (x :: xs) (y :: ys)))
        (((y :: ys).drop (skipCount (x :: xs) (y :: ys))).drop (litCount (x :: xs) (y :: ys)))

/-- Modelled from the spec: `BitPack::pack` of `comp_decomp.rs`.  Walks the
two buffers as parallel streams of 3-byte triples and emits segments of a
1-byte skip count `n ∈ [0,255]` followed by `m ∈ [0,255]` literal triples of
B's data, runs longer than 255 being continued by further segments, exactly
as §4.1 of the spec frames it. -/
def pack (a b : List Pix) : List Seg := packGo a.length a b

/-- Modelled from the spec: applying a pack to a buffer (`unpack` of the
missing `comp_decomp.rs`): each segment skips `n` pixels of the buffer
unchanged, then overwrites the next pixels' triples with the literal data,
leaving every alpha byte as the buffer had it. -/
def applyPack : List Seg → List Pix → List Pix
  | [], buf => buf
  | (n, ts) :: rest, buf =>
    buf.take n ++
      (List.zipWith setTriple ts (buf.drop n) ++ applyPack rest ((buf.drop n).drop ts.length))

/-- Whether two buffers have the same length and agree on every alpha byte. -/
def alphaAgree : List Pix → List Pix → Bool
  | [], [] => true
  | p :: ps, q :: qs => decide (p.c3 = q.c3) && alphaAgree ps qs
  | _, _ => false

/-! ### Transition engine (`Transition::default` of `processor/mod.rs`) -/

/-- Unsigned distance between two channel bytes, as the source computes it
(`if old_col > new_col { old - new } else { new - old }`). -/
def distN (o n : Nat) : Nat := if n < o then o - n else n - o

/-- One channel of one transition frame: snap to the target when the distance
is below the step, otherwise move by the step towards the target. -/
def stepCol (s o n : Nat) : Nat :=
  if distN o n < s then n else if n < o then o - s else o + s

/-- Whether every one of the first three channels of a pixel snapped, i.e.
its distance to the target is below the step (the loop's `done` flag stays
`true` exactly when this holds for every pixel). -/
def pixDone (s : Nat) (o n : Pix) : Bool :=
  decide (distN o.c0 n.c0 < s) && decide (distN o.c1 n.c1 < s) &&
    decide (distN o.c2 n.c2 < s)

/-- One pixel of one transition frame: the first three channels walk from the
old pixel towards the new one, the fourth (alpha) byte keeps the working
buffer's previous value (the source's inner loop `take 3` never touches
it). -/
def stepPix (s : Nat) (t o n : Pix) : Pix :=
  ⟨stepCol s o.c0 n.c0, stepCol s o.c1 n.c1, stepCol s o.c2 n.c2, t.c3⟩

/-- One full pass of the transition loop's body over the working buffer `t`,
the on-screen buffer `o` and the target `n` (the source zips the three
buffers as 4-byte chunks). -/
def transStep (s : Nat) (t o n : List Pix) : List Pix :=
  List.zipWith (fun tp pr => stepPix s tp pr.1 pr.2) t (o.zip n)

/-- The transition loop's `done` flag for one pass: every channel of every
pixel is within the step of its target. -/
def transDone (s : Nat) (o n : List Pix) : Bool :=
  (o.zip n).all fun pr => pixDone s pr.1 pr.2

/-- The unpreempted transition loop: each iteration computes the next working
buffer, emits it, and either finishes (when every channel snapped this pass)
or copies the working buffer over the old one and repeats.  Fuel bounds the
iterations a run may take; `some frames` is a run that completed (the
source's `return true`) and lists every emitted frame in order. -/
def transLoop (s : Nat) (n : List Pix) : List Pix → List Pix → Nat → Option (List (List Pix))
  | _, _, 0 => none
  | t, o, fuel + 1 =>
    if transDone s o n then some [transStep s t o n]
    else
      (transLoop s n (transStep s t o n) (transStep s t o n) fuel).map
        fun fs => transStep s t o n :: fs

/-- `Transition::default`: the working buffer starts as all-`0xFF` bytes of
the new image's length (`vec![255; new_img.len()]`), the loop walks `old`
towards `new`. -/
def transitionRun (s : Nat) (old new : List Pix) (fuel : Nat) : Option (List (List Pix)) :=
  transLoop s new (List.replicate new.length ⟨255, 255, 255, 255⟩) old fuel

/-- Every pixel of the buffer has its first three bytes below 256 (the
content of a Rust `u8` buffer). -/
def bytesLt (l : List Pix) : Prop :=
  ∀ p ∈ l, p.c0 < 256 ∧ p.c1 < 256 ∧ p.c2 < 256

instance : DecidablePred bytesLt := fun l =>
  inferInstanceAs (Decidable (∀ p ∈ l, p.c0 < 256 ∧ p.c1 < 256 ∧ p.c2 < 256))

/-- The resizer's byte swizzle (`img_resize`): swap bytes 0 and 2 of every
pixel to convert RGBA to the surface's BGRA order; alpha passes through. -/
def swizzlePix (p : Pix) : Pix := ⟨p.c2, p.c1, p.c0, p.c3⟩

/-- `img_resize`'s swizzle pass over a whole buffer. -/
def swizzleBuf (l : List Pix) : List Pix := l.map swizzlePix

/-- Every one of a pixel's first three channels is within distance `m` of the
target pixel's channel. -/
def pixDistLt (m : Nat) (o n : Pix) : Prop :=
  distN o.c0 n.c0 < m ∧ distN o.c1 n.c1 < m ∧ distN o.c2 n.c2 < m

/-- Pointwise channel-distance bound between two buffers. -/
def bufDistLt (m : Nat) (o n : List Pix) : Prop :=
  ∀ i oi ni, o.get? i = some oi → n.get? i = some ni → pixDistLt m oi ni

/-! ### Animation decoder (`GifProcessor::process` and `animation`) -/

/-- The frame-emitting walk of `GifProcessor::process`: the gif's remaining
frames (already decoded; `resize` stands for `img_resize` applied to each)
are packed against the running canvas in source order with their own delays,
and the loop is closed by packing the last canvas back to `first` with the
discarded first frame's delay `d0`. -/
def gifFrames {α : Type} (resize : α → List Pix) (first : List Pix) (d0 : Nat) :
    List (α × Nat) → List Pix → List (List Seg × Nat)
  | [], canvas => [(pack canvas first, d0)]
  | (f, d) :: rest, canvas =>
    (pack canvas (resize f), d) :: gifFrames resize first d0 rest (resize f)

/-- `GifProcessor::process`: the canvas starts as the caller-supplied first
resized frame, the decoder's own frame 0 contributes only its delay `d0`
(emitted last, closing the loop), `frames` are the decoder's remaining
frames with their delays. -/
def gifProcess {α : Type} (resize : α → List Pix) (first : List Pix) (d0 : Nat)
    (frames : List (α × Nat)) : List (List Seg × Nat) :=
  gifFrames resize first d0 frames first

/-- The replay phase of `animation`: once the decoder thread is done the
cached `(pack, delay)` pairs are replayed cyclically forever — the `j`-th
dispatch of the replay loop sends `cache[j mod |cache|]` — and only when the
cache holds more than one frame (`cached_frames.len() > 1`).  The replay is a
function of the cache alone: no source decoding occurs after the first
pass. -/
def animationReplay (cache : List (List Seg × Nat)) (j : Nat) : Option (List Seg × Nat) :=
  if 1 < cache.length then cache.get? (j % cache.length) else none

/-! ### Processor coordinator (`Processor::process`) -/

/-- `crate::Answer` as the coordinator returns it. -/
inductive Answer where
  | Ok : Answer
  | Err : String → Answer
deriving DecidableEq

/-- The resampling filter selector (`image::imageops::FilterType`, the five
variants the CLI accepts). -/
inductive Filter where
  | Nearest
  | Triangle
  | CatmullRom
  | Gaussian
  | Lanczos3
deriving DecidableEq

/-- A per-batch rendering request (`ProcessorRequest`).  The path is an
abstract key into the filesystem environment; `fps` is the frame period in
milliseconds. -/
structure ProcessorRequest where
  outputs : List String
  dimensions : Nat × Nat
  old_img : List Pix
  path : String
  filter : Filter
  step : Nat
  fps : Nat

/-- The coordinator state the claims observe: the preemption signals sent so
far (`stop_animations` calls, each carrying the outputs to stop) and the
workers spawned so far (each with its output set and the resized new
image). -/
structure ProcState where
  stops : List (List String)
  spawned : List (List String × List Pix)
deriving DecidableEq

/-- `Processor::process`: walk the batch in order; for each request decode
its source image through the filesystem environment `fsys` (`image::open`),
returning `Err` at the first failure, otherwise send the preemption signal
for the request's outputs (`stop_animations`), resize the decoded image and
spawn the worker, then continue with the rest of the batch. -/
def processBatch (fsys : String → Option (List Pix))
    (resize : List Pix → Nat × Nat → Filter → List Pix) :
    List ProcessorRequest → ProcState → Answer × ProcState
  | [], st => (Answer.Ok, st)
  | r :: rest, st =>
    match fsys r.path with
    | none => (Answer.Err ("failed to open image " ++ r.path), st)
    | some img =>
      processBatch fsys resize rest
        ⟨st.stops ++ [r.outputs],
          st.spawned ++ [(r.outputs, resize img r.dimensions r.filter)]⟩

/-! ### Frame dispatch (`send_frame`) -/

/-- What the timed poll of the preemption channel
(`stop_recv.recv_timeout(timeout)`) can yield. -/
inductive Poll where
  | recv : List String → Poll
  | timeout : Poll
  | disconnected : Poll
deriving DecidableEq

/-- The observable outcome of one `send_frame` dispatch: the worker's output
set afterwards, whether the caller must exit (`send_frame`'s return value),
and the output set the frame was dispatched to on the sink channel (`none`
when `sender.send` was never reached). -/
structure SendOutcome where
  outputs : List String
  exit : Bool
  sent : Option (List String)
deriving DecidableEq

/-- `send_frame`: poll the preemption channel with the frame timeout.  A
received drop-set removes its outputs (`retain`); the dispatch returns
`true` (exit) before sending when the remaining set is empty or the drop-set
was empty, and on a disconnected preemption channel.  Otherwise the frame
goes to the sink for the remaining outputs; a failed sink send (`sinkOk =
false`) also returns `true`. -/
def send_frame (outputs : List String) : Poll → Bool → SendOutcome
  | Poll.recv to_remove, sinkOk =>
    if (outputs.filter fun o => !(to_remove.contains o)).isEmpty || to_remove.isEmpty then
      ⟨outputs.filter fun o => !(to_remove.contains o), true, none⟩
    else
      ⟨outputs.filter fun o => !(to_remove.contains o), !sinkOk,
        some (outputs.filter fun o => !(to_remove.contains o))⟩
  | Poll.timeout, sinkOk => ⟨outputs, !sinkOk, some outputs⟩
  | Poll.disconnected, _ => ⟨outputs, true, none⟩

/-! ### Helper lemmas for the delta codec -/

theorem alphaAgree_length : ∀ a b : List Pix, alphaAgree a b = true → a.length = b.length := by
  intro a
  induction a with
  | nil => intro b h; cases b with
    | nil => rfl
    | cons q qs => simp [alphaAgree] at h
  | cons p ps ih =>
    intro b h
    cases b with
    | nil => simp [alphaAgree] at h
    | cons q qs =>
      simp only [alphaAgree, Bool.and_eq_true] at h
      simp [List.length_cons, ih qs h.2]

theorem alphaAgree_drop : ∀ (k : Nat) (a b : List Pix),
    alphaAgree a b = true → alphaAgree (a.drop k) (b.drop k) = true := by
  intro k
  induction k with
  | zero => intro a b h; simpa using h
  | succ k ih =>
    intro a b h
    cases a with
    | nil =>
      cases b with
      | nil => simpa using h
      | cons q qs => simp [alphaAgree] at h
    | cons p ps =>
      cases b with
      | nil => simp [alphaAgree] at h
      | cons q qs =>
        simp only [alphaAgree, Bool.and_eq_true] at h
        simpa using ih ps qs h.2

theorem take_eq_of_countEq : ∀ (k : Nat) (a b : List Pix),
    alphaAgree a b = true → k ≤ countEq a b → a.take k = b.take k := by
  intro k
  induction k with
  | zero => intro a b _ _; simp
  | succ k ih =>
    intro a b h hk
    cases a with
    | nil => simp [countEq] at hk
    | cons x xs =>
      cases b with
      | nil => simp [countEq] at hk
      | cons y ys =>
        simp only [alphaAgree, Bool.and_eq_true, decide_eq_true_eq] at h
        rcases h with ⟨h3, hrest⟩
        by_cases he : eqTriple x y = true
        · have hxy : x = y := by
            have ht : tripleOf x = tripleOf y := by
              simpa [eqTriple] using he
            cases x; cases y
            simp only [tripleOf, Tri.mk.injEq] at ht
            simp_all
          have hk2 : k ≤ countEq xs ys := by
            simp only [countEq, he, if_true] at hk
            omega
          simp [List.take_succ_cons, hxy, ih xs ys hrest hk2]
        · simp only [countEq, he] at hk
          simp at hk

theorem countDiff_le : ∀ a b : List Pix, countDiff a b ≤ b.length := by
  intro a
  induction a with
  | nil => intro b; simp [countDiff]
  | cons x xs ih =>
    intro b
    cases b with
    | nil => simp [countDiff]
    | cons y ys =>
      simp only [countDiff, List.length_cons]
      by_cases he : eqTriple x y = true
      · simp [he]
      · simp only [he, if_false, Bool.false_eq_true]
        have := ih ys
        omega

theorem zip_setTriple_take : ∀ (k : Nat) (a b : List Pix),
    alphaAgree a b = true → k ≤ b.length →
    List.zipWith setTriple ((b.take k).map tripleOf) a = b.take k := by
  intro k
  induction k with
  | zero => intro a b _ _; simp
  | succ k ih =>
    intro a b h hk
    cases b with
    | nil => simp at hk
    | cons y ys =>
      cases a with
      | nil => simp [alphaAgree] at h
      | cons x xs =>
        simp only [alphaAgree, Bool.and_eq_true, decide_eq_true_eq] at h
        rcases h with ⟨h3, hrest⟩
        have hset : setTriple (tripleOf y) x = y := by
          cases y
          simp only [setTriple, tripleOf]
          simp_all
        simp only [List.take_succ_cons, List.map_cons, List.zipWith_cons_cons, hset]
        have hk2 : k ≤ ys.length := by simpa using hk
        rw [ih xs ys hrest hk2]

theorem consume_pos (x y : Pix) (xs ys : List Pix) :
    1 ≤ skipCount (x :: xs) (y :: ys) + litCount (x :: xs) (y :: ys) := by
  rcases Nat.eq_zero_or_pos (countEq (x :: xs) (y :: ys)) with h | h
  · have hd : eqTriple x y = false := by
      revert h
      unfold countEq
      rcases eqTriple x y with _ | _ <;> simp
    have h0 : skipCount (x :: xs) (y :: ys) = 0 := by simp [skipCount, h]
    have hdiff : 1 ≤ countDiff (x :: xs) (y :: ys) := by
      unfold countDiff
      rw [hd]
      simp
    have : 1 ≤ litCount (x :: xs) (y :: ys) := by
      simp only [litCount, h0, List.drop_zero]
      exact le_min (by norm_num) hdiff
    omega
  · have : 1 ≤ skipCount (x :: xs) (y :: ys) := le_min (by norm_num) h
    omega

theorem packGo_roundtrip : ∀ (fuel : Nat) (a b : List Pix), a.length ≤ fuel →
    alphaAgree a b = true → applyPack (packGo fuel a b) a = b := by
  intro fuel
  induction fuel with
  | zero =>
    intro a b hf h
    cases a with
    | nil =>
      cases b with
      | nil => simp [packGo, applyPack]
      | cons q qs => simp [alphaAgree] at h
    | cons x xs => simp at hf
  | succ fuel ih =>
    intro a b hf h
    cases a with
    | nil =>
      cases b with
      | nil => simp [packGo, applyPack]
      | cons q qs => simp [alphaAgree] at h
    | cons x xs =>
      cases b with
      | nil => simp [alphaAgree] at h
      | cons y ys =>
        have hdrop := alphaAgree_drop (skipCount (x :: xs) (y :: ys)) _ _ h
        have hmle : litCount (x :: xs) (y :: ys) ≤
            ((y :: ys).drop (skipCount (x :: xs) (y :: ys))).length :=
          le_trans (Nat.min_le_right _ _) (countDiff_le _ _)
        simp only [packGo, segOf, applyPack]
        have hlen : ((((y :: ys).drop (skipCount (x :: xs) (y :: ys))).take
            (litCount (x :: xs) (y :: ys))).map tripleOf).length =
            litCount (x :: xs) (y :: ys) := by
          simp only [List.length_map, List.length_take]
          exact Nat.min_eq_left hmle
        rw [hlen]
        have hskip_le : skipCount (x :: xs) (y :: ys) ≤ countEq (x :: xs) (y :: ys) :=
          Nat.min_le_right _ _
        rw [take_eq_of_countEq _ _ _ h hskip_le]
        rw [zip_setTriple_take _ _ _ hdrop hmle]
        have hfl : (((x :: xs).drop (skipCount (x :: xs) (y :: ys))).drop
            (litCount (x :: xs) (y :: ys))).length ≤ fuel := by
          have hc := consume_pos x y xs ys
          simp only [List.length_drop, List.length_cons]
          simp only [List.length_cons] at hf
          omega
        rw [ih _ _ hfl (alphaAgree_drop _ _ _ hdrop)]
        rw [List.take_append_drop, List.take_append_drop]

/-- Claim C1 (amended): the delta-codec round-trip `apply(pack(A,B), A) = B`
holds for every pair of equal-length buffers whose corresponding pixels have
equal alpha bytes (the codec transmits only the first three bytes of each
pixel, so alpha must already agree). -/
theorem c1_pack_apply_roundtrip (a b : List Pix) (h : alphaAgree a b = true) :
    applyPack (pack a b) a = b :=
  packGo_roundtrip a.length a b le_rfl h

/-- Claim C1 (counterexample): for the equal-length buffers
`A = [(0,0,0,0)]` and `B = [(0,0,0,255)]` (equal triples, differing alpha),
applying the pack produced from `(A,B)` to `A` does not yield `B`. -/
theorem c1_counterexample :
    ([⟨0, 0, 0, 0⟩] : List Pix).length = ([⟨0, 0, 0, 255⟩] : List Pix).length ∧
    applyPack (pack [⟨0, 0, 0, 0⟩] [⟨0, 0, 0, 255⟩]) [⟨0, 0, 0, 0⟩] ≠
      ([⟨0, 0, 0, 255⟩] : List Pix) := by
  constructor
  · rfl
  · decide

/-- Claim C1 (witness): the round-trip theorem applied at a concrete pair of
alpha-agreeing buffers. -/
theorem c1_witness :
    alphaAgree [⟨1, 2, 3, 9⟩, ⟨4, 5, 6, 9⟩] [⟨7, 7, 7, 9⟩, ⟨4, 5, 6, 9⟩] = true ∧
    applyPack (pack [⟨1, 2, 3, 9⟩, ⟨4, 5, 6, 9⟩] [⟨7, 7, 7, 9⟩, ⟨4, 5, 6, 9⟩])
      [⟨1, 2, 3, 9⟩, ⟨4, 5, 6, 9⟩] = [⟨7, 7, 7, 9⟩, ⟨4, 5, 6, 9⟩] :=
  ⟨by decide, c1_pack_apply_roundtrip _ _ (by decide)⟩

/-! ### Helper lemmas for the transition engine -/

theorem stepCol_dist (s o n : Nat) :
    distN (stepCol s o n) n = if distN o n < s then 0 else distN o n - s := by
  unfold stepCol distN
  split_ifs <;> omega

theorem transLoop_succ (s : Nat) (n t o : List Pix) (fuel : Nat) :
    transLoop s n t o (fuel + 1) =
      if transDone s o n then some [transStep s t o n]
      else
        (transLoop s n (transStep s t o n) (transStep s t o n) fuel).map
          fun fs => transStep s t o n :: fs := by
  rfl

theorem transDone_of_lt {s : Nat} {o n : List Pix} (h : bufDistLt s o n) :
    transDone s o n = true := by
  unfold transDone
  rw [List.all_eq_true]
  intro pr hpr
  rcases List.mem_iff_get?.1 hpr with ⟨i, hi⟩
  rcases (List.get?_zip_eq_some _ _ _ _).1 hi with ⟨h1, h2⟩
  have hd := h i pr.1 pr.2 h1 h2
  simp only [pixDone, Bool.and_eq_true, decide_eq_true_eq]
  exact ⟨⟨hd.1, hd.2.1⟩, hd.2.2⟩

theorem transStep_distLt {s m : Nat} (hm : 1 ≤ m) {t o n : List Pix}
    (h : bufDistLt (m + s) o n) : bufDistLt m (transStep s t o n) n := by
  intro i pi ni hpi hni
  unfold transStep at hpi
  rcases (List.get?_zipWith_eq_some _ _ _ _ _).1 hpi with ⟨tp, pr, _htp, hpr, heq⟩
  rcases (List.get?_zip_eq_some _ _ _ _).1 hpr with ⟨ho, hn⟩
  have hpr2 : pr.2 = ni := by
    rw [hn] at hni
    exact Option.some.inj hni
  have hold := h i pr.1 ni ho (hpr2 ▸ hn)
  rw [← heq, hpr2]
  unfold pixDistLt at hold ⊢
  obtain ⟨hc0, hc1, hc2⟩ := hold
  refine ⟨?_, ?_, ?_⟩ <;>
    · simp only [stepPix]
      rw [stepCol_dist]
      split_ifs <;> omega

theorem transLoop_completes (s : Nat) (hs : 1 ≤ s) (n : List Pix) :
    ∀ (k : Nat) (t o : List Pix), bufDistLt (s * k + s) o n →
    ∃ fs, transLoop s n t o (k + 1) = some fs ∧ fs.length ≤ k + 1 := by
  intro k
  induction k with
  | zero =>
    intro t o h
    have hd : transDone s o n = true := transDone_of_lt (by simpa using h)
    exact ⟨[transStep s t o n], by rw [transLoop_succ, if_pos hd], by simp⟩
  | succ k ih =>
    intro t o h
    by_cases hd : transDone s o n = true
    · exact ⟨[transStep s t o n], by rw [transLoop_succ, if_pos hd], by simp⟩
    · have h2 : bufDistLt (s * k + s) (transStep s t o n) n := by
        apply transStep_distLt (by omega)
        have he : s * (k + 1) + s = s * k + s + s := by ring
        rw [he] at h
        exact h
      rcases ih (transStep s t o n) (transStep s t o n) h2 with ⟨fs, hfs, hlen⟩
      refine ⟨transStep s t o n :: fs, ?_, ?_⟩
      · rw [transLoop_succ, if_neg hd, hfs]
        rfl
      · simp only [List.length_cons]
        omega

theorem transLoop_alpha (s : Nat) (n : List Pix) :
    ∀ (fuel : Nat) (t o : List Pix) (fs : List (List Pix)),
    (∀ p ∈ t, p.c3 = 255) → transLoop s n t o fuel = some fs →
    ∀ F ∈ fs, ∀ p ∈ F, p.c3 = 255 := by
  intro fuel
  induction fuel with
  | zero =>
    intro t o fs _ h
    simp [transLoop] at h
  | succ fuel ih =>
    intro t o fs ht h
    have hstep : ∀ p ∈ transStep s t o n, p.c3 = 255 := by
      intro p hp
      rcases List.mem_iff_get?.1 hp with ⟨i, hi⟩
      unfold transStep at hi
      rcases (List.get?_zipWith_eq_some _ _ _ _ _).1 hi with ⟨tp, pr, htp, _hpr, heq⟩
      have h3 : tp.c3 = 255 := ht tp (List.mem_iff_get?.2 ⟨i, htp⟩)
      rw [← heq]
      simpa [stepPix] using h3
    rw [transLoop_succ] at h
    by_cases hd : transDone s o n = true
    · rw [if_pos hd] at h
      have hfs : fs = [transStep s t o n] := (Option.some.inj h).symm
      subst hfs
      intro F hF
      rcases List.mem_singleton.1 hF with rfl
      exact hstep
    · rw [if_neg hd] at h
      cases hrec : transLoop s n (transStep s t o n) (transStep s t o n) fuel with
      | none =>
        rw [hrec] at h
        simp at h
      | some fs2 =>
        rw [hrec] at h
        have hfs : fs = transStep s t o n :: fs2 := by
          simpa using h.symm
        subst hfs
        intro F hF
        rcases List.mem_cons.1 hF with rfl | h2
        · exact hstep
        · exact ih (transStep s t o n) (transStep s t o n) fs2 hstep hrec F h2

/-- Claim C3: for every pair of equal-length byte buffers and every step
`s ∈ [1,255]`, an unpreempted transition run completes (returns
`completed = true`) after emitting at most `⌈255/s⌉ + 1` frames. -/
theorem c3_transition_frame_bound (s : Nat) (O N : List Pix)
    (h1 : 1 ≤ s) (h2 : s ≤ 255) (hlen : O.length = N.length)
    (hO : bytesLt O) (hN : bytesLt N) :
    ∃ fs, transitionRun s O N ((255 + s - 1) / s + 1) = some fs ∧
      fs.length ≤ (255 + s - 1) / s + 1 := by
  have hdm := Nat.div_add_mod (255 + s - 1) s
  have hmod : (255 + s - 1) % s < s := Nat.mod_lt _ (by omega)
  have hb : bufDistLt (s * ((255 + s - 1) / s) + s) O N := by
    intro i oi ni hoi hni
    have hOm := hO oi (List.mem_iff_get?.2 ⟨i, hoi⟩)
    have hNm := hN ni (List.mem_iff_get?.2 ⟨i, hni⟩)
    have hd0 : distN oi.c0 ni.c0 ≤ 255 := by
      unfold distN
      split_ifs <;> omega
    have hd1 : distN oi.c1 ni.c1 ≤ 255 := by
      unfold distN
      split_ifs <;> omega
    have hd2 : distN oi.c2 ni.c2 ≤ 255 := by
      unfold distN
      split_ifs <;> omega
    exact ⟨by omega, by omega, by omega⟩
  exact transLoop_completes s h1 N ((255 + s - 1) / s) _ O hb

/-- Claim C3 (witness): the frame bound applied to the concrete S1 buffers
with step 5 (bound `⌈255/5⌉ + 1 = 52`). -/
theorem c3_witness :
    (1 ≤ 5 ∧ 5 ≤ 255 ∧ ([⟨0, 0, 0, 0⟩] : List Pix).length = ([⟨30, 20, 10, 255⟩] : List Pix).length ∧
      bytesLt [⟨0, 0, 0, 0⟩] ∧ bytesLt [⟨30, 20, 10, 255⟩]) ∧
    ∃ fs, transitionRun 5 [⟨0, 0, 0, 0⟩] [⟨30, 20, 10, 255⟩] ((255 + 5 - 1) / 5 + 1) = some fs ∧
      fs.length ≤ (255 + 5 - 1) / 5 + 1 :=
  ⟨by decide, c3_transition_frame_bound 5 _ _ (by decide) (by decide) (by decide)
    (by decide) (by decide)⟩

/-- Claim C4 (counterexample): the S1 scenario — old buffer 4 zero pixels,
new buffer the swizzle of 4 source pixels `(10,20,30,255)`, step 5 — emits 7
frames, not the claimed `⌈30/5⌉ = 6`: the frame that moves the largest
channel to exactly its target is followed by one final frame in which every
channel snaps. -/
theorem c4_counterexample :
    (transitionRun 5 (List.replicate 4 ⟨0, 0, 0, 0⟩)
      (swizzleBuf (List.replicate 4 ⟨10, 20, 30, 255⟩)) 52).map List.length = some 7 ∧
    (7 : Nat) ≠ 6 := by
  exact ⟨by decide, by decide⟩

/-- Claim C4 (amended): the S1 scenario emits exactly `⌈30/5⌉ + 1 = 7`
frames, the last emitted frame equals the new (swizzled) buffer — so the
on-screen content already equals the new buffer from frame 6 on — and the
transition completes. -/
theorem c4_s1_exact :
    (transitionRun 5 (List.replicate 4 ⟨0, 0, 0, 0⟩)
      (swizzleBuf (List.replicate 4 ⟨10, 20, 30, 255⟩)) 52).map List.length = some 7 ∧
    (transitionRun 5 (List.replicate 4 ⟨0, 0, 0, 0⟩)
      (swizzleBuf (List.replicate 4 ⟨10, 20, 30, 255⟩)) 52).map (fun fs => fs.getLastD []) =
      some (swizzleBuf (List.replicate 4 ⟨10, 20, 30, 255⟩)) ∧
    (transitionRun 5 (List.replicate 4 ⟨0, 0, 0, 0⟩)
      (swizzleBuf (List.replicate 4 ⟨10, 20, 30, 255⟩)) 52).isSome = true := by
  refine ⟨by decide, by decide, by decide⟩

theorem transLoop_stuck (s : Nat) (n : List Pix) :
    ∀ (fuel : Nat) (t o : List Pix) (i : Nat) (oi ni : Pix),
    o.get? i = some oi → n.get? i = some ni → i < t.length →
    s * fuel ≤ distN oi.c0 ni.c0 →
    transLoop s n t o fuel = none := by
  intro fuel
  induction fuel with
  | zero =>
    intro t o i oi ni _ _ _ _
    rfl
  | succ fuel ih =>
    intro t o i oi ni ho hn hti hd
    have hnd : ¬ distN oi.c0 ni.c0 < s := by
      rw [Nat.mul_succ] at hd
      omega
    have hdone : transDone s o n = false := by
      rw [Bool.eq_false_iff]
      intro hall
      rw [transDone, List.all_eq_true] at hall
      have hzip : (o.zip n).get? i = some (oi, ni) :=
        (List.get?_zip_eq_some _ _ _ _).2 ⟨ho, hn⟩
      have hpd := hall _ (List.mem_iff_get?.2 ⟨i, hzip⟩)
      simp only [pixDone, Bool.and_eq_true, decide_eq_true_eq] at hpd
      exact hnd hpd.1.1
    obtain ⟨ti, hti2⟩ : ∃ a, t.get? i = some a := by
      cases hgt : t.get? i with
      | none =>
        rw [List.get?_eq_none] at hgt
        omega
      | some a => exact ⟨a, rfl⟩
    have hstep : (transStep s t o n).get? i = some (stepPix s ti oi ni) := by
      unfold transStep
      rw [List.get?_zipWith_eq_some]
      exact ⟨ti, (oi, ni), hti2, (List.get?_zip_eq_some _ _ _ _).2 ⟨ho, hn⟩, rfl⟩
    have hlen2 : i < (transStep s t o n).length := by
      rcases List.get?_eq_some.1 hstep with ⟨hlt, _⟩
      exact hlt
    have hd2 : s * fuel ≤ distN (stepPix s ti oi ni).c0 ni.c0 := by
      simp only [stepPix]
      rw [stepCol_dist]
      rw [Nat.mul_succ] at hd
      split_ifs <;> omega
    rw [transLoop_succ, if_neg (by simp [hdone])]
    rw [ih (transStep s t o n) (transStep s t o n) i (stepPix s ti oi ni) ni hstep hn
      hlen2 hd2]
    rfl

/-- Claim C5 (counterexample): with step 1 and a single pixel at channel
distance 255 (old `(0,0,0,255)`, new `(255,0,0,255)`), the transition loop is
still not finished after 255 iterations (each of which emits a frame), so an
unpreempted run emits more than the claimed 255 frames — it takes 256. -/
theorem c5_counterexample :
    transitionRun 1 [⟨0, 0, 0, 255⟩] [⟨255, 0, 0, 255⟩] 255 = none := by
  unfold transitionRun
  exact transLoop_stuck 1 _ 255 _ _ 0 ⟨0, 0, 0, 255⟩ ⟨255, 0, 0, 255⟩ rfl rfl
    (by decide) (by decide)

/-- Claim C5 (amended): with step 1 every transition over byte buffers
completes after at most 256 = `⌈255/1⌉ + 1` frames. -/
theorem c5_unit_step_bound (O N : List Pix) (hlen : O.length = N.length)
    (hO : bytesLt O) (hN : bytesLt N) :
    ∃ fs, transitionRun 1 O N 256 = some fs ∧ fs.length ≤ 256 := by
  have hb : bufDistLt (1 * 255 + 1) O N := by
    intro i oi ni hoi hni
    have hOm := hO oi (List.mem_iff_get?.2 ⟨i, hoi⟩)
    have hNm := hN ni (List.mem_iff_get?.2 ⟨i, hni⟩)
    refine ⟨?_, ?_, ?_⟩ <;> (unfold distN; split_ifs <;> omega)
  have h := transLoop_completes 1 le_rfl N 255
    (List.replicate N.length ⟨255, 255, 255, 255⟩) O hb
  rw [show (255 : Nat) + 1 = 256 from rfl] at h
  exact h

/-- Claim C5 (witness): the unit-step bound at a concrete pair. -/
theorem c5_witness :
    (([⟨0, 0, 0, 0⟩] : List Pix).length = ([⟨3, 0, 0, 255⟩] : List Pix).length ∧
      bytesLt [⟨0, 0, 0, 0⟩] ∧ bytesLt [⟨3, 0, 0, 255⟩]) ∧
    ∃ fs, transitionRun 1 [⟨0, 0, 0, 0⟩] [⟨3, 0, 0, 255⟩] 256 = some fs ∧ fs.length ≤ 256 :=
  ⟨by decide, c5_unit_step_bound _ _ (by decide) (by decide) (by decide)⟩

/-- Claim C6: one pass of the transition loop never increases any pixel's
per-channel unsigned distance to the target, for each of the first three
channels: the pixel the pass writes at index `i` is
`stepPix s t[i] o[i] n[i]`, and each of its channels is at least as close to
the target channel as the previous buffer's was. -/
theorem c6_monotone_approach (s : Nat) (hs : 1 ≤ s) (t o n : List Pix) (i : Nat)
    (ti oi ni : Pix) (ht : t.get? i = some ti) (ho : o.get? i = some oi)
    (hn : n.get? i = some ni) :
    (transStep s t o n).get? i = some (stepPix s ti oi ni) ∧
    distN (stepPix s ti oi ni).c0 ni.c0 ≤ distN oi.c0 ni.c0 ∧
    distN (stepPix s ti oi ni).c1 ni.c1 ≤ distN oi.c1 ni.c1 ∧
    distN (stepPix s ti oi ni).c2 ni.c2 ≤ distN oi.c2 ni.c2 := by
  refine ⟨?_, ?_, ?_, ?_⟩
  · unfold transStep
    rw [List.get?_zipWith_eq_some]
    exact ⟨ti, (oi, ni), ht, (List.get?_zip_eq_some _ _ _ _).2 ⟨ho, hn⟩, rfl⟩
  all_goals
    simp only [stepPix]
    rw [stepCol_dist]
    split_ifs <;> omega

/-- Claim C6 (witness): the monotone-approach property at a concrete pixel
(step 5, old channel values (0,0,0), target (30,20,10)). -/
theorem c6_witness :
    (1 ≤ 5 ∧ ([⟨255, 255, 255, 255⟩] : List Pix).get? 0 = some ⟨255, 255, 255, 255⟩ ∧
      ([⟨0, 0, 0, 0⟩] : List Pix).get? 0 = some ⟨0, 0, 0, 0⟩ ∧
      ([⟨30, 20, 10, 255⟩] : List Pix).get? 0 = some ⟨30, 20, 10, 255⟩) ∧
    ((transStep 5 [⟨255, 255, 255, 255⟩] [⟨0, 0, 0, 0⟩] [⟨30, 20, 10, 255⟩]).get? 0 =
        some (stepPix 5 ⟨255, 255, 255, 255⟩ ⟨0, 0, 0, 0⟩ ⟨30, 20, 10, 255⟩) ∧
      distN (stepPix 5 ⟨255, 255, 255, 255⟩ ⟨0, 0, 0, 0⟩ ⟨30, 20, 10, 255⟩).c0 30 ≤ distN 0 30 ∧
      distN (stepPix 5 ⟨255, 255, 255, 255⟩ ⟨0, 0, 0, 0⟩ ⟨30, 20, 10, 255⟩).c1 20 ≤ distN 0 20 ∧
      distN (stepPix 5 ⟨255, 255, 255, 255⟩ ⟨0, 0, 0, 0⟩ ⟨30, 20, 10, 255⟩).c2 10 ≤ distN 0 10) :=
  ⟨by decide, c6_monotone_approach 5 (by decide) _ _ _ 0 _ _ _ rfl rfl rfl⟩

/-- Claim C7 (counterexample): for a transition towards a non-opaque target
(new pixel `(9,0,0,7)`, alpha 7), every emitted frame carries alpha byte 255
(the working buffer's initial value), not the new buffer's alpha 7. -/
theorem c7_counterexample :
    (transitionRun 3 [⟨0, 0, 0, 0⟩] [⟨9, 0, 0, 7⟩] 10).map
        (fun fs => fs.map fun F => F.map Pix.c3) =
      some [[255], [255], [255], [255]] ∧ (255 : Nat) ≠ 7 := by
  exact ⟨by decide, by decide⟩

/-- Claim C7 (amended): in every completed transition run, every pixel of
every emitted frame has alpha byte `0xFF` — the working buffer is initialised
all-`0xFF` and the loop never writes the fourth byte of a pixel.
Consequently, the emitted alpha agrees with the new buffer's alpha exactly
when the new buffer is fully opaque. -/
theorem c7_alpha_invariant (s : Nat) (O N : List Pix) (fuel : Nat)
    (fs : List (List Pix)) (h : transitionRun s O N fuel = some fs) :
    (∀ F ∈ fs, ∀ p ∈ F, p.c3 = 255) ∧
    ((∀ q ∈ N, q.c3 = 255) → ∀ F ∈ fs, ∀ i p q, F.get? i = some p →
      N.get? i = some q → p.c3 = q.c3) := by
  have hrep : ∀ p ∈ List.replicate N.length (⟨255, 255, 255, 255⟩ : Pix), p.c3 = 255 := by
    intro p hp
    rw [(List.mem_replicate.1 hp).2]
  have hall := transLoop_alpha s N fuel _ O fs hrep h
  refine ⟨hall, ?_⟩
  intro hN F hF i p q hp hq
  rw [hall F hF p (List.mem_iff_get?.2 ⟨i, hp⟩), hN q (List.mem_iff_get?.2 ⟨i, hq⟩)]

/-! ### Helper lemmas for the animation decoder -/

theorem gifFrames_spec {α : Type} (resize : α → List Pix) (first : List Pix) (d0 : Nat) :
    ∀ (frames : List (α × Nat)) (canvas : List Pix),
    gifFrames resize first d0 frames canvas =
      List.zipWith (fun pr d => (pack pr.1 pr.2, d))
        ((canvas :: frames.map fun fd => resize fd.1).zip (frames.map fun fd => resize fd.1))
        (frames.map Prod.snd) ++
      [(pack ((frames.map fun fd => resize fd.1).getLastD canvas) first, d0)] := by
  intro frames
  induction frames with
  | nil =>
    intro canvas
    simp [gifFrames]
  | cons fd rest ih =>
    intro canvas
    obtain ⟨f, d⟩ := fd
    simp only [gifFrames, List.map_cons, List.zip_cons_cons, List.zipWith_cons_cons,
      List.getLastD_cons, List.cons_append]
    rw [ih (resize f)]

theorem gifFrames_length {α : Type} (resize : α → List Pix) (first : List Pix) (d0 : Nat) :
    ∀ (frames : List (α × Nat)) (canvas : List Pix),
    (gifFrames resize first d0 frames canvas).length = frames.length + 1 := by
  intro frames
  induction frames with
  | nil =>
    intro canvas
    rfl
  | cons fd rest ih =>
    intro canvas
    obtain ⟨f, d⟩ := fd
    simp [gifFrames, ih]

/-- Claim C8: for an animated source with resized frames `F₀, …, Fₖ`
(`F₀ = first`, `Fᵢ = resize framesᵢ` for the decoder's remaining frames),
the worker emits exactly `(pack F₀ F₁, delay₁), …, (pack Fₖ₋₁ Fₖ, delayₖ)`
followed by the loop-closing `(pack Fₖ F₀, delay₀)`; and the replay phase —
a function of the in-memory cache alone, with no further source decoding —
replays exactly that sequence cyclically: its `j`-th dispatch is entry
`j mod (k+1)` of the cache. -/
theorem c8_animation_order {α : Type} (resize : α → List Pix) (first : List Pix)
    (d0 : Nat) (frames : List (α × Nat)) (hk : 1 ≤ frames.length) :
    gifProcess resize first d0 frames =
      List.zipWith (fun pr d => (pack pr.1 pr.2, d))
        ((first :: frames.map fun fd => resize fd.1).zip (frames.map fun fd => resize fd.1))
        (frames.map Prod.snd) ++
      [(pack ((frames.map fun fd => resize fd.1).getLastD first) first, d0)] ∧
    (∀ j, animationReplay (gifProcess resize first d0 frames) j =
      (gifProcess resize first d0 frames).get? (j % (frames.length + 1))) := by
  constructor
  · exact gifFrames_spec resize first d0 frames first
  · intro j
    unfold animationReplay gifProcess
    rw [gifFrames_length]
    rw [if_pos (by omega)]

/-- Claim C8 (witness): the animation ordering applied to a concrete 2-frame
source (the spec's S3 shape, with `resize` the identity on already-resized
buffers). -/
theorem c8_witness :
    1 ≤ ([([⟨1, 0, 0, 255⟩], 100), ([⟨2, 0, 0, 255⟩], 100)] : List (List Pix × Nat)).length ∧
    (gifProcess (fun x : List Pix => x) [⟨0, 0, 0, 255⟩] 90
        [([⟨1, 0, 0, 255⟩], 100), ([⟨2, 0, 0, 255⟩], 100)] =
      List.zipWith (fun pr d => (pack pr.1 pr.2, d))
        (([⟨0, 0, 0, 255⟩] ::
            ([([⟨1, 0, 0, 255⟩], 100), ([⟨2, 0, 0, 255⟩], 100)] : List (List Pix × Nat)).map
              fun fd => (fun x : List Pix => x) fd.1).zip
          (([([⟨1, 0, 0, 255⟩], 100), ([⟨2, 0, 0, 255⟩], 100)] : List (List Pix × Nat)).map
            fun fd => (fun x : List Pix => x) fd.1))
        (([([⟨1, 0, 0, 255⟩], 100), ([⟨2, 0, 0, 255⟩], 100)] : List (List Pix × Nat)).map
          Prod.snd) ++
      [(pack ((([([⟨1, 0, 0, 255⟩], 100), ([⟨2, 0, 0, 255⟩], 100)] : List (List Pix × Nat)).map
          fun fd => (fun x : List Pix => x) fd.1).getLastD [⟨0, 0, 0, 255⟩]) [⟨0, 0, 0, 255⟩],
        90)] ∧
    (∀ j, animationReplay (gifProcess (fun x : List Pix => x) [⟨0, 0, 0, 255⟩] 90
        [([⟨1, 0, 0, 255⟩], 100), ([⟨2, 0, 0, 255⟩], 100)]) j =
      (gifProcess (fun x : List Pix => x) [⟨0, 0, 0, 255⟩] 90
        [([⟨1, 0, 0, 255⟩], 100), ([⟨2, 0, 0, 255⟩], 100)]).get?
        (j % (([([⟨1, 0, 0, 255⟩], 100), ([⟨2, 0, 0, 255⟩], 100)] :
          List (List Pix × Nat)).length + 1)))) :=
  ⟨by decide, c8_animation_order (fun x : List Pix => x) [⟨0, 0, 0, 255⟩] 90
    [([⟨1, 0, 0, 255⟩], 100), ([⟨2, 0, 0, 255⟩], 100)] (by decide)⟩

/-! ### Processor coordinator theorems -/

/-- Claim C2 (amended): `process` walks the batch in order and commits
request after request: it returns `Err` naming the first request whose
source fails to decode, and the preemption signals sent and workers spawned
are exactly those of the longest prefix of successfully decoding requests —
so a decode failure aborts the batch before the failing request's own worker
(and any later one) is spawned, but workers of earlier requests in the batch
have already started; only when the first request fails is the coordinator
state left unchanged. -/
theorem c2_batch_commit_prefix (fsys : String → Option (List Pix))
    (resize : List Pix → Nat × Nat → Filter → List Pix) :
    ∀ (reqs : List ProcessorRequest) (st : ProcState),
    processBatch fsys resize reqs st =
      (match reqs.dropWhile (fun r => (fsys r.path).isSome) with
        | [] => Answer.Ok
        | r :: _ => Answer.Err ("failed to open image " ++ r.path),
       ⟨st.stops ++ ((reqs.takeWhile fun r => (fsys r.path).isSome).map fun r => r.outputs),
        st.spawned ++ ((reqs.takeWhile fun r => (fsys r.path).isSome).map fun r =>
          (r.outputs, resize ((fsys r.path).getD []) r.dimensions r.filter))⟩) := by
  intro reqs
  induction reqs with
  | nil =>
    intro st
    simp [processBatch]
  | cons r rest ih =>
    intro st
    cases hfs : fsys r.path with
    | none =>
      simp [processBatch, hfs, List.dropWhile_cons, List.takeWhile_cons]
    | some img =>
      simp only [processBatch, hfs]
      rw [ih]
      simp [List.dropWhile_cons, List.takeWhile_cons, hfs]

/-- Claim C2 (counterexample): a batch of two requests whose second path does
not exist — the coordinator returns `Err`, but the first request's worker has
already been spawned (and its preemption signal sent), so the claimed "no
worker of the batch starts / state unchanged" fails. -/
theorem c2_counterexample :
    (processBatch (fun p => if p = "a.png" then some [⟨1, 2, 3, 255⟩] else none)
        (fun img _ _ => img)
        [⟨["HDMI-1"], (1, 1), [], "a.png", Filter.Lanczos3, 5, 16⟩,
          ⟨["DP-1"], (1, 1), [], "missing.png", Filter.Lanczos3, 5, 16⟩]
        ⟨[], []⟩).1 ≠ Answer.Ok ∧
    (processBatch (fun p => if p = "a.png" then some [⟨1, 2, 3, 255⟩] else none)
        (fun img _ _ => img)
        [⟨["HDMI-1"], (1, 1), [], "a.png", Filter.Lanczos3, 5, 16⟩,
          ⟨["DP-1"], (1, 1), [], "missing.png", Filter.Lanczos3, 5, 16⟩]
        ⟨[], []⟩).2.spawned = [(["HDMI-1"], [⟨1, 2, 3, 255⟩])] := by
  exact ⟨by decide, by decide⟩

/-! ### Frame-dispatch theorems -/

/-- Claim C9: when a dispatch's poll yields a drop-set `D`, the worker's
output set becomes its previous set minus `D`; across every kind of poll the
output set never grows; and (with the sink alive) the dispatch exits exactly
when the remaining set is empty or `D` is empty, otherwise it continues and
the frame goes out to exactly the remaining outputs. -/
theorem c9_preemption_semantics (outputs D : List String) (sinkOk : Bool)
    (hs : sinkOk = true) :
    (send_frame outputs (Poll.recv D) sinkOk).outputs =
      (outputs.filter fun o => !(D.contains o)) ∧
    (∀ poll : Poll, ∀ o, o ∈ (send_frame outputs poll sinkOk).outputs → o ∈ outputs) ∧
    ((send_frame outputs (Poll.recv D) sinkOk).exit = true ↔
      ((outputs.filter fun o => !(D.contains o)) = [] ∨ D = [])) ∧
    ((send_frame outputs (Poll.recv D) sinkOk).exit = false →
      (send_frame outputs (Poll.recv D) sinkOk).sent =
        some (outputs.filter fun o => !(D.contains o))) := by
  subst hs
  refine ⟨?_, ?_, ?_, ?_⟩
  · simp only [send_frame]
    split_ifs <;> rfl
  · intro poll o ho
    cases poll with
    | recv D2 =>
      simp only [send_frame] at ho
      split_ifs at ho <;> exact (List.mem_filter.1 ho).1
    | timeout => exact ho
    | disconnected => exact ho
  · simp only [send_frame]
    by_cases hc : ((outputs.filter fun o => !(D.contains o)).isEmpty || D.isEmpty) = true
    · rw [if_pos hc]
      simp only [Bool.or_eq_true, List.isEmpty_iff] at hc
      exact ⟨fun _ => hc, fun _ => rfl⟩
    · rw [if_neg hc]
      simp only [Bool.or_eq_true, List.isEmpty_iff] at hc
      push_neg at hc
      constructor
      · intro hfalse
        simp at hfalse
      · intro hor
        rcases hor with h1 | h2
        · exact absurd h1 hc.1
        · exact absurd h2 hc.2
  · simp only [send_frame]
    by_cases hc : ((outputs.filter fun o => !(D.contains o)).isEmpty || D.isEmpty) = true
    · rw [if_pos hc]
      intro h
      simp at h
    · rw [if_neg hc]
      intro _
      rfl

/-- Claim C9 (witness): preemption semantics at a concrete dispatch (outputs
`{A,B}`, drop-set `{B}`, sink alive). -/
theorem c9_witness :
    (true = (true : Bool)) ∧
    ((send_frame ["A", "B"] (Poll.recv ["B"]) true).outputs =
      (["A", "B"].filter fun o => !(["B"].contains o)) ∧
    (∀ poll : Poll, ∀ o, o ∈ (send_frame ["A", "B"] poll true).outputs → o ∈ ["A", "B"]) ∧
    ((send_frame ["A", "B"] (Poll.recv ["B"]) true).exit = true ↔
      ((["A", "B"].filter fun o => !(["B"].contains o)) = [] ∨ (["B"] : List String) = [])) ∧
    ((send_frame ["A", "B"] (Poll.recv ["B"]) true).exit = false →
      (send_frame ["A", "B"] (Poll.recv ["B"]) true).sent =
        some (["A", "B"].filter fun o => !(["B"].contains o)))) :=
  ⟨rfl, c9_preemption_semantics ["A", "B"] ["B"] true rfl⟩

/-- Claim C10: a terminating poll — an empty drop-set, a drop-set leaving no
outputs, or a disconnected preemption channel — makes the dispatch exit
without the in-flight frame reaching the sink send; the frame is dispatched
exactly on a timeout (to all outputs) or on a non-terminating partial
drop-set (to the remaining outputs). -/
theorem c10_terminating_poll_discards (outputs : List String) (sinkOk : Bool) :
    ((send_frame outputs (Poll.recv []) sinkOk).exit = true ∧
      (send_frame outputs (Poll.recv []) sinkOk).sent = none) ∧
    ((send_frame outputs Poll.disconnected sinkOk).exit = true ∧
      (send_frame outputs Poll.disconnected sinkOk).sent = none) ∧
    (∀ D, (outputs.filter fun o => !(D.contains o)) = [] →
      (send_frame outputs (Poll.recv D) sinkOk).exit = true ∧
      (send_frame outputs (Poll.recv D) sinkOk).sent = none) ∧
    ((send_frame outputs Poll.timeout sinkOk).sent = some outputs) ∧
    (∀ D, D ≠ [] → (outputs.filter fun o => !(D.contains o)) ≠ [] →
      (send_frame outputs (Poll.recv D) sinkOk).sent =
        some (outputs.filter fun o => !(D.contains o))) := by
  refine ⟨?_, ⟨rfl, rfl⟩, ?_, rfl, ?_⟩
  · simp only [send_frame]
    rw [if_pos (by simp)]
    exact ⟨rfl, rfl⟩
  · intro D hD
    simp only [send_frame]
    rw [if_pos (by rw [hD]; rfl)]
    exact ⟨rfl, rfl⟩
  · intro D hD hF
    simp only [send_frame]
    rw [if_neg (by
      simp only [Bool.or_eq_true, List.isEmpty_iff]
      push_neg
      exact ⟨hF, hD⟩)]

/-- Claim C7 (witness): the alpha invariant on a concrete one-frame run. -/
theorem c7_witness :
    transitionRun 5 [⟨0, 0, 0, 0⟩] [⟨2, 0, 0, 9⟩] 2 = some [[⟨2, 0, 0, 255⟩]] ∧
    ((∀ F ∈ [[(⟨2, 0, 0, 255⟩ : Pix)]], ∀ p ∈ F, p.c3 = 255) ∧
      ((∀ q ∈ [(⟨2, 0, 0, 9⟩ : Pix)], q.c3 = 255) →
        ∀ F ∈ [[(⟨2, 0, 0, 255⟩ : Pix)]], ∀ i p q, F.get? i = some p →
          ([(⟨2, 0, 0, 9⟩ : Pix)]).get? i = some q → p.c3 = q.c3)) :=
  ⟨by decide, c7_alpha_invariant 5 [⟨0, 0, 0, 0⟩] [⟨2, 0, 0, 9⟩] 2 _ (by decide)⟩

end Fswww
